import Mathlib

/-!
Shallow embedding of `src/lib.rs` of the `digest` repository.

Strings are modelled as lists of characters (`Str`), so that Rust's
`starts_with` / `ends_with` / `contains` become `List.isPrefixOf`,
`List.isSuffixOf` and a substring scan.  Rust's `HashSet<String>` is modelled
as a list of patterns carrying an explicit iteration order; the file system
seen by the loaders is abstracted as the optional content of the ignore file
(`none` = the file does not exist).
-/

abbrev Str : Type := List Char

/-- Character-list literals. -/
def str (s : String) : Str := s.toList

/-- Rust `str::contains` for a substring needle. -/
def strContains (xs sub : Str) : Bool :=
  sub.isPrefixOf xs ||
    match xs with
    | [] => false
    | _ :: rest => strContains rest sub

/-- Rust `str::split(char)`: `"".split` is `[""]`, separators at the ends
produce empty items. -/
def splitOnChar (c : Char) : Str → List Str
  | [] => [[]]
  | x :: rest =>
    let r := splitOnChar c rest
    if x == c then [] :: r
    else (x :: r.headD []) :: r.tail

/-- Rust `str::trim` (ASCII whitespace; all patterns of interest are ASCII). -/
def trim (xs : Str) : Str :=
  ((xs.dropWhile Char.isWhitespace).reverse.dropWhile Char.isWhitespace).reverse

/-- Rust `path_str.split('/').last().unwrap_or("")`. -/
def lastSegment (p : Str) : Str := (splitOnChar '/' p).getLastD []

/-- Split at the leftmost occurrence of `sep` (`none` when `sep` does not
occur). -/
def splitFirst (sep : Str) : Str → Option (Str × Str)
  | [] => if sep.isEmpty then some ([], []) else none
  | x :: rest =>
    if sep.isPrefixOf (x :: rest) then some ([], (x :: rest).drop sep.length)
    else
      match splitFirst sep rest with
      | some (pre, post) => some (x :: pre, post)
      | none => none

/-- The first two elements of Rust `str::split` on a multi-character
separator (the source only reads `segments[0]` and `segments[1]`). -/
def firstTwoSegments (sep xs : Str) : Option (Str × Str) :=
  match splitFirst sep xs with
  | none => none
  | some (a, b) =>
    match splitFirst sep b with
    | none => some (a, b)
    | some (a2, _) => some (a, a2)

/-- `lib.rs` 25-29: shortcut for the literal pattern `**/test/**`. -/
def testDirShortcut (path_str : Str) : Bool :=
  strContains path_str (str "/test/") || (str "test/").isPrefixOf path_str

/-- `lib.rs` 31-51: shortcut for the literal pattern `**/test*/**`. -/
def testStarShortcut (path_str : Str) : Bool :=
  let path_segments := splitOnChar '/' path_str
  path_segments.enum.any fun is =>
    !is.2.isEmpty && (str "test").isPrefixOf is.2 &&
      (is.1 != path_segments.length - 1 || (str "/").isSuffixOf path_str)

/-- `lib.rs` 61-64: shortcut for the literal pattern `node_modules/`. -/
def nodeModulesShortcut (path_str : Str) : Bool :=
  (str "node_modules/").isPrefixOf path_str || strContains path_str (str "/node_modules/")

/-- `lib.rs` 67-71: shortcut for the literal pattern `build/`. -/
def buildShortcut (path_str : Str) : Bool :=
  (str "build/").isPrefixOf path_str || strContains path_str (str "/build/")

/-- `lib.rs` 73-76: the `.git` check performed on every loop iteration. -/
def gitAlways (path_str : Str) : Bool :=
  strContains path_str (str "/.git/") || path_str == str ".git"

/-- `lib.rs` 92-106: pattern starting with `**/`. -/
def anyDepthPrefixStep (path_str pat : Str) : Bool :=
  if (str "**/").isPrefixOf pat then
    let suf := pat.drop 3
    path_str == suf || ('/' :: suf).isSuffixOf path_str ||
      ((str "/").isSuffixOf suf &&
        (suf.dropLast.isSuffixOf path_str || strContains path_str (suf.dropLast ++ str "/")))
  else false

/-- `lib.rs` 109-119: pattern ending with `/**`. -/
def anyDepthSuffixStep (path_str pat : Str) : Bool :=
  if (str "/**").isSuffixOf pat then
    let pre := pat.take (pat.length - 3)
    (pre ++ str "/").isPrefixOf path_str || strContains path_str ('/' :: pre ++ str "/")
  else false

/-- `lib.rs` 122-144: pattern containing `/**/`. -/
def middleWildcardStep (path_str pat : Str) : Bool :=
  if strContains pat (str "/**/") then
    match firstTwoSegments (str "/**/") pat with
    | some ps =>
      let pre_matches := ps.1.isEmpty || ps.1.isPrefixOf path_str ||
        strContains path_str ('/' :: ps.1)
      let suf_matches := ps.2.isEmpty || ps.2.isSuffixOf path_str ||
        strContains path_str (ps.2 ++ str "/")
      pre_matches && suf_matches
    | none => false
  else false

/-- `lib.rs` 147-192: pattern ending with `/`; this branch always ends the
examination of the pattern (`return true` or `continue`). -/
def dirPatternStep (path_str pat : Str) : Bool :=
  let dir_name := pat.dropLast
  if dir_name.contains '*' then
    if (str "**/").isPrefixOf dir_name then
      let wildcard_part := dir_name.drop 3
      if wildcard_part.contains '*' then
        let parts := splitOnChar '*' wildcard_part
        if parts.length == 2 then
          (splitOnChar '/' path_str).any fun segment =>
            !segment.isEmpty && (parts.getD 0 []).isPrefixOf segment &&
              (parts.getD 1 []).isSuffixOf segment
        else false
      else false
    else false
  else
    path_str == dir_name || (dir_name ++ str "/").isPrefixOf path_str ||
      strContains path_str ('/' :: dir_name ++ str "/")

/-- `lib.rs` 201-239: single-`*` glob handling (`parts.len() == 2` means the
pattern holds exactly one `*`). -/
def singleStarStep (path_str pat : Str) : Bool :=
  let parts := splitOnChar '*' pat
  if parts.length == 2 then
    let p0 := parts.getD 0 []
    let p1 := parts.getD 1 []
    if pat.head? == some '*' && p1.isSuffixOf path_str then
      p1.isSuffixOf (lastSegment path_str) &&
        (p1.isEmpty || p1.head? == some '.' || lastSegment path_str == p1)
    else if pat.getLast? == some '*' && p0.isPrefixOf path_str then
      path_str == p0 || (p0 ++ str "/").isPrefixOf path_str ||
        strContains path_str ('/' :: p0 ++ str "/")
    else if !p0.isEmpty && !p1.isEmpty then
      if p1.head? == some '.' && strContains (lastSegment path_str) (p0 ++ p1) then true
      else strContains path_str (p0 ++ p1)
    else false
  else false

/-- `lib.rs` 79-248: handling of one pattern after the five shortcut checks
and the `.git` check; `pat` is the trimmed pattern text. -/
def generalMatch (path_str pat : Str) : Bool :=
  if pat.isEmpty || pat.head? == some '#' then false
  else if pat.head? == some '!' then false
  else
    anyDepthPrefixStep path_str pat ||
    anyDepthSuffixStep path_str pat ||
    middleWildcardStep path_str pat ||
    (if (str "/").isSuffixOf pat then dirPatternStep path_str pat
     else
       (pat == str "*.test.*" && strContains path_str (str ".test.")) ||
       (if pat.contains '*' && !(strContains pat (str "**")) then
          singleStarStep path_str pat
        else
          path_str == pat || ('/' :: pat).isSuffixOf path_str ||
            strContains path_str ('/' :: pat ++ str "/")))

/-- `lib.rs` 23-249: the loop body of `should_ignore` for a single pattern
(every early `return true` becomes a disjunct, every `continue` ends the
corresponding group with `false`). -/
def matchesPattern (path_str pattern : Str) : Bool :=
  (pattern == str "**/test/**" && testDirShortcut path_str) ||
  (pattern == str "**/test*/**" && testStarShortcut path_str) ||
  (pattern == str "**/*.md" && (str ".md").isSuffixOf path_str) ||
  (pattern == str "node_modules/" && nodeModulesShortcut path_str) ||
  (pattern == str "build/" && buildShortcut path_str) ||
  gitAlways path_str ||
  generalMatch path_str (trim pattern)

/-- `lib.rs` 20: `path_str.replace('\\', "/")` on one character. -/
def normalizeChar (c : Char) : Char := if c == '\\' then '/' else c

/-- `lib.rs` 20: `path_str.replace('\\', "/")` (the separator is a single
character, so the replacement is a character map). -/
def normalizePath (p : Str) : Str := p.map normalizeChar

/-- `lib.rs` 15-252: `should_ignore`.  The path is normalized by replacing
every backslash with a forward slash; the `HashSet` of patterns is a list in
iteration order. -/
def should_ignore (path : Str) (ignore_patterns : List Str) : Bool :=
  let path_str := normalizePath path
  ignore_patterns.any fun pattern => matchesPattern path_str pattern

/-- Rust `str::lines`: split on `'\n'`, drop the trailing empty line produced
by a final newline, strip a trailing `'\r'` from each line. -/
def rustLines (s : Str) : List Str :=
  if s.isEmpty then []
  else
    let parts := splitOnChar '\n' s
    let parts := if s.getLast? == some '\n' then parts.dropLast else parts
    parts.map fun l => if l.getLast? == some '\r' then l.dropLast else l

/-- `HashSet::insert` on the list model (no duplicates, insertion order
kept). -/
def hashSetInsert (s : List Str) (x : Str) : List Str :=
  if s.contains x then s else s ++ [x]

/-- `lib.rs` 272-278: the loop body of the loaders: trim the line, skip empty
lines and comments, insert the rest. -/
def loadStep (patterns : List Str) (line : Str) : List Str :=
  let line := trim line
  if !line.isEmpty && !(line.head? == some '#') then hashSetInsert patterns line
  else patterns

/-- `lib.rs` 269-278: the pattern set built from the ignore-file content:
the sentinel `".git"` plus every trimmed, non-empty, non-comment line. -/
def loadPatterns (content : Str) : List Str :=
  (rustLines content).foldl loadStep [str ".git"]

/-- `lib.rs` 254-281: `check_for_digestignore`; the file system is abstracted
as the optional content of `<project>/.digestignore`. -/
def check_for_digestignore (digestignore_file : Option Str) : Except Str (List Str) :=
  match digestignore_file with
  | none => Except.error (str "No .digestignore file found")
  | some content => Except.ok (loadPatterns content)

/-- `lib.rs` 283-306: `check_for_gitignore`, identical up to the file name. -/
def check_for_gitignore (gitignore_file : Option Str) : Except Str (List Str) :=
  match gitignore_file with
  | none => Except.error (str "No .gitignore file found")
  | some content => Except.ok (loadPatterns content)

/-! Sanity checks of the embedding on concrete inputs (mirroring the spec's
testable properties). -/

example : should_ignore (str "file.js") [str "*.js"] = true := by decide
example : should_ignore (str "src/app.js") [str "*.js"] = true := by decide
example : should_ignore (str "file.jsx") [str "*.js"] = false := by decide
example : should_ignore (str "test/file.rs") [str "test/"] = true := by decide
example : should_ignore (str "src/test/file.rs") [str "test/"] = true := by decide
example : should_ignore (str "testing/file.rs") [str "test/"] = false := by decide
example : should_ignore (str "build/file.js") [str "build/**"] = true := by decide
example : should_ignore (str "builds/file.js") [str "build/**"] = false := by decide
example : should_ignore (str "docs/README.md") [str "**/*.md"] = true := by decide
example : should_ignore (str "temporary/file.txt") [str "temp*/"] = false := by decide
example : should_ignore (str "temporary/file.txt") [str "**/temp*/"] = true := by decide
example : should_ignore (str "src/tests/helper.js") [str "**/test*/**"] = true := by decide
example : should_ignore (str "test_file.js") [str "**/test*/**"] = false := by decide
example : should_ignore (str ".git") [] = false := by decide
example : should_ignore (str ".git") [str "!foo"] = true := by decide
example : should_ignore (str "foo") [str "!foo"] = false := by decide
example : check_for_digestignore (some (str "# comment\n\nnode_modules/\n*.log")) =
    Except.ok [str ".git", str "node_modules/", str "*.log"] := rfl

/-! ### Basic lemmas about the string primitives -/

theorem strContains_iff {xs sub : Str} : strContains xs sub = true ↔ sub <:+: xs := by
  induction xs with
  | nil => simp [strContains]
  | cons x rest ih =>
    rw [strContains]
    simp [List.infix_cons_iff, ih]

theorem strContains_eq_false {xs sub : Str} (h : ¬ sub <:+: xs) :
    strContains xs sub = false := by
  rcases hb : strContains xs sub with _ | _
  · rfl
  · exact absurd (strContains_iff.1 hb) h

theorem normalizePath_eq_self {p : Str} (h : '\\' ∉ p) : normalizePath p = p := by
  induction p with
  | nil => rfl
  | cons c cs ih =>
    have hc : c ≠ '\\' := fun he => h (he ▸ List.mem_cons_self _ _)
    have hcs : '\\' ∉ cs := fun hm => h (List.mem_cons_of_mem _ hm)
    show normalizeChar c :: normalizePath cs = c :: cs
    rw [ih hcs]
    simp [normalizeChar, hc]

theorem normalizeChar_idem (c : Char) : normalizeChar (normalizeChar c) = normalizeChar c := by
  by_cases hc : c = '\\'
  · subst hc; decide
  · simp [normalizeChar, hc]

theorem normalizePath_idem (p : Str) : normalizePath (normalizePath p) = normalizePath p := by
  unfold normalizePath
  rw [List.map_map]
  exact List.map_congr_left fun a _ => normalizeChar_idem a

theorem bool_eq_of_iff {a b : Bool} (h : a = true ↔ b = true) : a = b := by
  cases a <;> cases b <;> simp_all

/-! ### C9: the empty pattern set never excludes anything -/

/-- C9: with an empty `PatternSet`, `should_ignore` returns `false` for every
path — including the path `".git"` itself and paths inside a `.git`
directory — because every check, the always-exclude `.git` check included,
is performed inside the loop over patterns, which never executes. -/
theorem should_ignore_empty (p : Str) : should_ignore p [] = false := rfl

/-! ### C10: backslash normalization -/

/-- C10: for every path `p` and pattern set `S`, the verdict of
`should_ignore` on `p` equals its verdict on `p` with every backslash
replaced by a forward slash: separators are normalized before any
matching. -/
theorem should_ignore_normalize_invariant (p : Str) (S : List Str) :
    should_ignore p S = should_ignore (normalizePath p) S := by
  unfold should_ignore
  rw [normalizePath_idem]

/-! ### C2: order independence -/

/-- C2: two pattern sets holding exactly the same patterns (permutations of
one collection) yield the same verdict on every path: the result never
depends on the iteration order. -/
theorem should_ignore_perm_invariant (p : Str) (S1 S2 : List Str) (h : S1.Perm S2) :
    should_ignore p S1 = should_ignore p S2 := by
  unfold should_ignore
  refine bool_eq_of_iff ?_
  simp only [List.any_eq_true]
  exact exists_congr fun x => and_congr_left fun _ => h.mem_iff

/-- C2 witness at a concrete permutation. -/
theorem should_ignore_perm_invariant_witness :
    should_ignore (str "x") [str "a", str "b"] = should_ignore (str "x") [str "b", str "a"] :=
  should_ignore_perm_invariant (str "x") [str "a", str "b"] [str "b", str "a"] (by decide)

/-! ### C3: monotonicity -/

/-- C3: adding patterns can only add matches: if `S ⊆ S'` and `should_ignore`
excludes `p` under `S`, it also excludes `p` under `S'`. -/
theorem should_ignore_monotone (p : Str) (S S' : List Str)
    (hsub : ∀ x, x ∈ S → x ∈ S') (h : should_ignore p S = true) :
    should_ignore p S' = true := by
  unfold should_ignore at h ⊢
  rcases List.any_eq_true.1 h with ⟨x, hx, hfx⟩
  exact List.any_eq_true.2 ⟨x, hsub x hx, hfx⟩

/-- C3 witness at a concrete subset pair. -/
theorem should_ignore_monotone_witness :
    should_ignore (str "build/x.js") [str "build/", str "docs/"] = true :=
  should_ignore_monotone (str "build/x.js") [str "build/"] [str "build/", str "docs/"]
    (fun x hx => by simp only [List.mem_singleton] at hx; simp [hx]) (by decide)

/-! ### C1: the always-exclude `.git` rule -/

/-- C1 counterexample: the claim promises exclusion for every path with a
`.git` segment even under the empty `PatternSet`, but with an empty set the
loop never runs and `".git"` is kept; moreover a leading `.git` segment is
not covered by the `"/.git/"` substring check even for a non-empty set. -/
theorem git_always_excluded_counterexample :
    should_ignore (str ".git") [] = false ∧
    should_ignore (str ".git/config") [str "xyz"] = false := by
  refine ⟨rfl, by decide⟩

/-- C1 amended: for every NON-EMPTY pattern set `S` — whatever its
contents — a path equal to `".git"` or containing `"/.git/"` as a substring
is always excluded.  (The guarantee does not extend to the empty set, nor to
`.git` segments at the very start or end of a longer path.) -/
theorem git_always_excluded (p : Str) (S : List Str) (hS : S ≠ [])
    (h : p = str ".git" ∨ (str "/.git/") <:+: p) :
    should_ignore p S = true := by
  have hg : gitAlways (normalizePath p) = true := by
    rcases h with h | h
    · subst h; decide
    · have hmap : (str "/.git/") <:+: normalizePath p := by
        have h6 : normalizePath (str "/.git/") = str "/.git/" := by decide
        rw [← h6]
        exact h.map normalizeChar
      unfold gitAlways
      rw [Bool.or_eq_true]
      exact Or.inl (strContains_iff.2 hmap)
  rcases S with _ | ⟨pat, S'⟩
  · exact absurd rfl hS
  · unfold should_ignore
    simp [matchesPattern, hg]

/-- C1 amended witness. -/
theorem git_always_excluded_witness :
    should_ignore (str "a/.git/b") [str "zzz"] = true :=
  git_always_excluded (str "a/.git/b") [str "zzz"] (by decide) (Or.inr (by decide))

/-! ### C6: the pattern-set loaders -/

theorem mem_hashSetInsert {s : List Str} {x y : Str} :
    y ∈ hashSetInsert s x ↔ y ∈ s ∨ y = x := by
  unfold hashSetInsert
  rcases hc : s.contains x with _ | _
  · simp [hc]
  · have hx : x ∈ s := by simpa using hc
    simp only [hc, if_true]
    exact ⟨Or.inl, fun h => h.elim id fun he => he ▸ hx⟩

theorem mem_loadStep {acc : List Str} {l x : Str} :
    x ∈ loadStep acc l ↔ x ∈ acc ∨ (x = trim l ∧ x ≠ [] ∧ x.head? ≠ some '#') := by
  unfold loadStep
  rcases hc : (!(trim l).isEmpty && !((trim l).head? == some '#')) with _ | _
  · have hl : ¬trim l = [] → (trim l).head? = some '#' := by
      simpa [Bool.and_eq_false_iff] using hc
    simp only [hc]
    simp only [Bool.false_eq_true, if_false]
    constructor
    · exact Or.inl
    · rintro (h | ⟨rfl, hne, hh⟩)
      · exact h
      · exact absurd (hl hne) hh
  · have hl : ¬trim l = [] ∧ ¬(trim l).head? = some '#' := by
      simpa using hc
    simp only [hc, if_true, mem_hashSetInsert]
    constructor
    · rintro (h | rfl)
      · exact Or.inl h
      · exact Or.inr ⟨rfl, hl.1, hl.2⟩
    · rintro (h | ⟨rfl, _, _⟩)
      · exact Or.inl h
      · exact Or.inr rfl

theorem mem_foldl_loadStep (x : Str) (ls : List Str) (acc : List Str) :
    x ∈ ls.foldl loadStep acc ↔
      x ∈ acc ∨ ∃ line ∈ ls, x = trim line ∧ x ≠ [] ∧ x.head? ≠ some '#' := by
  induction ls generalizing acc with
  | nil => simp
  | cons l ls ih =>
    rw [List.foldl_cons, ih, mem_loadStep]
    simp only [List.mem_cons, exists_eq_or_imp]
    tauto

/-- C6: `check_for_digestignore` (and identically `check_for_gitignore`)
fails exactly when the ignore file does not exist; on success the returned
pattern set consists of the sentinel `".git"` together with every line that,
after trimming, is non-empty and does not start with `'#'`; in particular the
file with lines `["# comment", "", "node_modules/", "*.log"]` loads to
exactly `{".git", "node_modules/", "*.log"}`. -/
theorem loader_spec :
    (∀ fs : Option Str, (check_for_digestignore fs).isOk = fs.isSome) ∧
    (∀ fs : Option Str, (check_for_gitignore fs).isOk = fs.isSome) ∧
    (∀ content x, x ∈ loadPatterns content ↔
      x = str ".git" ∨
        ∃ line ∈ rustLines content, x = trim line ∧ x ≠ [] ∧ x.head? ≠ some '#') ∧
    check_for_digestignore (some (str "# comment\n\nnode_modules/\n*.log")) =
      Except.ok [str ".git", str "node_modules/", str "*.log"] ∧
    check_for_gitignore (some (str "# comment\n\nnode_modules/\n*.log")) =
      Except.ok [str ".git", str "node_modules/", str "*.log"] ∧
    check_for_digestignore none = Except.error (str "No .digestignore file found") ∧
    check_for_gitignore none = Except.error (str "No .gitignore file found") := by
  refine ⟨fun fs => by cases fs <;> rfl, fun fs => by cases fs <;> rfl,
    fun content x => ?_, rfl, rfl, rfl, rfl⟩
  unfold loadPatterns
  rw [mem_foldl_loadStep]
  simp [or_comm]

/-! ### C8: empty, comment and negated patterns -/

theorem beq_eq_false_of_trim_ne (s : Str) {pat : Str}
    (hpat : trim pat = [] ∨ (trim pat).head? = some '#' ∨ (trim pat).head? = some '!')
    (hs : ¬(trim s = [] ∨ (trim s).head? = some '#' ∨ (trim s).head? = some '!')) :
    (pat == s) = false := by
  rcases hb : pat == s with _ | _
  · rfl
  · have he : pat = s := by simpa using hb
    exact absurd (he ▸ hpat) hs

/-- C8 counterexample: the claim says an empty/comment/negated pattern never
changes the verdict, but adding `"!foo"` to the empty set flips the verdict
on the path `".git"`: the unconditional `.git` check runs once per examined
pattern, so any pattern at all makes `".git"` excluded. -/
theorem inert_patterns_counterexample :
    should_ignore (str ".git") [str "!foo"] = true ∧
    should_ignore (str ".git") [] = false :=
  ⟨by decide, rfl⟩

/-- C8 amended: a pattern that trims to the empty string, to a comment
(`#`-prefixed) or to a negated pattern (`!`-prefixed) carries no matching
effect of its own: adding it to any pattern set leaves the verdict unchanged
for every path other than the always-excluded `.git` paths (`p ≠ ".git"`,
no `"/.git/"` substring); in particular `should_ignore "foo" {"!foo"}` is
`false`. -/
theorem inert_patterns (pat p : Str) (S : List Str)
    (hpat : trim pat = [] ∨ (trim pat).head? = some '#' ∨ (trim pat).head? = some '!')
    (hbs : '\\' ∉ p) (hgit1 : p ≠ str ".git") (hgit2 : ¬(str "/.git/") <:+: p) :
    should_ignore p (pat :: S) = should_ignore p S := by
  simp only [should_ignore, normalizePath_eq_self hbs, List.any_cons]
  have hm : matchesPattern p pat = false := by
    unfold matchesPattern
    have h1 := beq_eq_false_of_trim_ne (str "**/test/**") hpat (by decide)
    have h2 := beq_eq_false_of_trim_ne (str "**/test*/**") hpat (by decide)
    have h3 := beq_eq_false_of_trim_ne (str "**/*.md") hpat (by decide)
    have h4 := beq_eq_false_of_trim_ne (str "node_modules/") hpat (by decide)
    have h5 := beq_eq_false_of_trim_ne (str "build/") hpat (by decide)
    have hg : gitAlways p = false := by
      unfold gitAlways
      rw [strContains_eq_false hgit2]
      simp [hgit1]
    have hgen : generalMatch p (trim pat) = false := by
      unfold generalMatch
      rcases hpat with h | h | h
      · simp [h]
      · simp [h]
      · rcases hq : trim pat with _ | ⟨c, cs⟩
        · rw [hq] at h; exact absurd h (by simp)
        · rw [hq] at h
          have hc : c = '!' := by simpa using h
          subst hc
          have e1 : ((some '!' : Option Char) == some '#') = false := by decide
          have e2 : ((some '!' : Option Char) == some '!') = true := by decide
          simp [e1, e2]
    rw [h1, h2, h3, h4, h5, hg, hgen]
    rfl
  rw [hm]
  rfl

/-- C8 amended witness. -/
theorem inert_patterns_witness :
    should_ignore (str "foo") [str "!foo"] = false :=
  (inert_patterns (str "!foo") (str "foo") [] (by decide) (by decide) (by decide)
    (by decide)).trans rfl

/-! ### Helpers for evaluating the match engine symbolically -/

theorem beq_str_eq_false_of_mem {a : Char} {p x : Str} (hp : a ∉ p) (hx : a ∈ x) :
    (p == x) = false := by
  rcases hb : p == x with _ | _
  · rfl
  · have he : p = x := by simpa using hb
    subst he
    exact absurd hx hp

theorem isSuffixOf_eq_false_of_mem {a : Char} {p x : Str} (hp : a ∉ p) (hx : a ∈ x) :
    x.isSuffixOf p = false := by
  rcases hb : x.isSuffixOf p with _ | _
  · rfl
  · have hs : x <:+ p := by simpa using hb
    exact absurd (hs.mem hx) hp

theorem isPrefixOf_eq_false_of_mem {a : Char} {p x : Str} (hp : a ∉ p) (hx : a ∈ x) :
    x.isPrefixOf p = false := by
  rcases hb : x.isPrefixOf p with _ | _
  · rfl
  · have hs : x <+: p := by simpa using hb
    exact absurd (hs.mem hx) hp

theorem strContains_eq_false_of_mem {a : Char} {p x : Str} (hp : a ∉ p) (hx : a ∈ x) :
    strContains p x = false := by
  rcases hb : strContains p x with _ | _
  · rfl
  · have hs : x <:+: p := strContains_iff.1 hb
    exact absurd (hs.mem hx) hp

theorem gitAlways_eq_false {p : Str} (hgit1 : p ≠ str ".git")
    (hgit2 : ¬(str "/.git/") <:+: p) : gitAlways p = false := by
  unfold gitAlways
  rw [strContains_eq_false hgit2]
  simp [hgit1]

/-! ### C5: the `**/test*/**` shortcut -/

theorem testStarShortcut_iff (p : Str) :
    testStarShortcut p = true ↔
      ∃ i, ∃ h : i < (splitOnChar '/' p).length,
        (splitOnChar '/' p).get ⟨i, h⟩ ≠ [] ∧
        (str "test") <+: (splitOnChar '/' p).get ⟨i, h⟩ ∧
        (i ≠ (splitOnChar '/' p).length - 1 ∨ (str "/") <:+ p) := by
  unfold testStarShortcut
  rw [List.any_eq_true]
  constructor
  · rintro ⟨⟨i, seg⟩, hmem, hcond⟩
    obtain ⟨h, hget⟩ := List.get?_eq_some.1 (List.mem_enum_iff_get?.1 hmem)
    simp only [Bool.and_eq_true, Bool.not_eq_eq_eq_not, Bool.not_true,
      List.isEmpty_eq_false, bne_iff_ne, ne_eq, Bool.or_eq_true,
      List.isSuffixOf_iff_suffix, decide_eq_true_eq] at hcond
    refine ⟨i, h, ?_, ?_, ?_⟩
    · rw [hget]; exact hcond.1.1
    · rw [hget]
      simpa using hcond.1.2
    · rcases hcond.2 with hc | hc
      · exact Or.inl (by simpa using hc)
      · exact Or.inr hc
  · rintro ⟨i, h, hne, hpre, hlast⟩
    refine ⟨(i, (splitOnChar '/' p).get ⟨i, h⟩), List.mem_enum_iff_get?.2 ?_, ?_⟩
    · exact List.get?_eq_some.2 ⟨h, rfl⟩
    · simp only [Bool.and_eq_true, Bool.not_eq_eq_eq_not, Bool.not_true,
        List.isEmpty_eq_false, bne_iff_ne, ne_eq, Bool.or_eq_true,
        List.isSuffixOf_iff_suffix, decide_eq_true_eq]
      refine ⟨⟨hne, by simpa using hpre⟩, ?_⟩
      rcases hlast with hc | hc
      · exact Or.inl (by simpa using hc)
      · exact Or.inr hc

theorem matchesPattern_test_star {p : Str} (hstar : '*' ∉ p)
    (hgit1 : p ≠ str ".git") (hgit2 : ¬(str "/.git/") <:+: p) :
    matchesPattern p (str "**/test*/**") = testStarShortcut p := by
  unfold matchesPattern
  have e1 : ((str "**/test*/**") == str "**/test/**") = false := by decide
  have e2 : ((str "**/test*/**") == str "**/test*/**") = true := by decide
  have e3 : ((str "**/test*/**") == str "**/*.md") = false := by decide
  have e4 : ((str "**/test*/**") == str "node_modules/") = false := by decide
  have e5 : ((str "**/test*/**") == str "build/") = false := by decide
  have ht : trim (str "**/test*/**") = str "**/test*/**" := by decide
  have hgen : generalMatch p (str "**/test*/**") = false := by
    unfold generalMatch
    have g1 : ((str "**/test*/**").isEmpty || (str "**/test*/**").head? == some '#') = false := by
      decide
    have g2 : ((str "**/test*/**").head? == some '!') = false := by decide
    rw [g1, g2]
    have s1 : anyDepthPrefixStep p (str "**/test*/**") = false := by
      unfold anyDepthPrefixStep
      simp [show (str "**/").isPrefixOf (str "**/test*/**") = true from by decide,
        show (str "**/test*/**").drop 3 = str "test*/**" from by decide,
        beq_str_eq_false_of_mem hstar (show '*' ∈ str "test*/**" by decide),
        isSuffixOf_eq_false_of_mem hstar (show '*' ∈ '/' :: str "test*/**" by decide),
        show (str "/").isSuffixOf (str "test*/**") = false from by decide]
    have s2 : anyDepthSuffixStep p (str "**/test*/**") = false := by
      unfold anyDepthSuffixStep
      simp [show (str "/**").isSuffixOf (str "**/test*/**") = true from by decide,
        show (str "**/test*/**").take ((str "**/test*/**").length - 3) = str "**/test*" from by
          decide,
        isPrefixOf_eq_false_of_mem hstar (show '*' ∈ str "**/test*" ++ str "/" by decide),
        strContains_eq_false_of_mem hstar
          (show '*' ∈ '/' :: (str "**/test*" ++ str "/") by decide)]
    have s3 : middleWildcardStep p (str "**/test*/**") = false := by
      unfold middleWildcardStep
      simp [show strContains (str "**/test*/**") (str "/**/") = false from by decide]
    have s4 : ((str "/").isSuffixOf (str "**/test*/**")) = false := by decide
    have s5 : ((str "**/test*/**") == str "*.test.*") = false := by decide
    have s6 : strContains (str "**/test*/**") (str "**") = true := by decide
    simp [s1, s2, s3, s4, s5, s6,
      beq_str_eq_false_of_mem hstar (show '*' ∈ str "**/test*/**" by decide),
      isSuffixOf_eq_false_of_mem hstar (show '*' ∈ '/' :: str "**/test*/**" by decide),
      strContains_eq_false_of_mem hstar
        (show '*' ∈ '/' :: (str "**/test*/**" ++ str "/") by decide)]
  rw [e1, e2, e3, e4, e5, gitAlways_eq_false hgit1 hgit2, ht, hgen]
  simp

/-- C5 counterexample: the claim quantifies over every `PatternSet`
CONTAINING `**/test*/**` and demands an exact characterization ("exactly
when"); with the set `{"**/test*/**", "foo"}` the path `"foo"` is excluded
although none of its `/`-delimited segments starts with `"test"`. -/
theorem test_star_pattern_counterexample :
    (str "**/test*/**") ∈ [str "**/test*/**", str "foo"] ∧
    should_ignore (str "foo") [str "**/test*/**", str "foo"] = true ∧
    ¬∃ i, ∃ h : i < (splitOnChar '/' (str "foo")).length,
        (splitOnChar '/' (str "foo")).get ⟨i, h⟩ ≠ [] ∧
        (str "test") <+: (splitOnChar '/' (str "foo")).get ⟨i, h⟩ ∧
        (i ≠ (splitOnChar '/' (str "foo")).length - 1 ∨ (str "/") <:+ (str "foo")) := by
  refine ⟨by decide, by decide, ?_⟩
  rintro ⟨i, h, hne, hpre, hlast⟩
  have hl : (splitOnChar '/' (str "foo")).length = 1 := by decide
  have h1 : i < 1 := hl ▸ h
  have hi : i = 0 := by omega
  subst hi
  have hg : (splitOnChar '/' (str "foo")).get ⟨0, h⟩ = str "foo" := rfl
  rw [hg] at hpre
  exact absurd hpre (by decide)

/-- C5 amended: when the `PatternSet` is EXACTLY the singleton
`{"**/test*/**"}`, `should_ignore` excludes a wildcard-free, slash-normalized
path outside `.git` exactly when some non-empty `/`-delimited segment starts
with `"test"` and is either not the final segment or the path ends with
`'/'`. -/
theorem test_star_pattern_spec (p : Str) (hstar : '*' ∉ p) (hbs : '\\' ∉ p)
    (hgit1 : p ≠ str ".git") (hgit2 : ¬(str "/.git/") <:+: p) :
    should_ignore p [str "**/test*/**"] = true ↔
      ∃ i, ∃ h : i < (splitOnChar '/' p).length,
        (splitOnChar '/' p).get ⟨i, h⟩ ≠ [] ∧
        (str "test") <+: (splitOnChar '/' p).get ⟨i, h⟩ ∧
        (i ≠ (splitOnChar '/' p).length - 1 ∨ (str "/") <:+ p) := by
  rw [← testStarShortcut_iff]
  simp only [should_ignore, normalizePath_eq_self hbs, List.any_cons, List.any_nil,
    Bool.or_false]
  rw [matchesPattern_test_star hstar hgit1 hgit2]

/-- C5 amended witness: `"src/tests/helper.js"` is excluded, the
single-segment `"test_file.js"` is kept. -/
theorem test_star_pattern_spec_witness :
    should_ignore (str "src/tests/helper.js") [str "**/test*/**"] = true ∧
    should_ignore (str "test_file.js") [str "**/test*/**"] = false := by
  constructor
  · rw [test_star_pattern_spec (str "src/tests/helper.js") (by decide) (by decide) (by decide)
      (by decide)]
    exact ⟨1, by decide, by decide, by decide, Or.inl (by decide)⟩
  · have h := test_star_pattern_spec (str "test_file.js") (by decide) (by decide) (by decide)
      (by decide)
    rcases hb : should_ignore (str "test_file.js") [str "**/test*/**"] with _ | _
    · rfl
    · exfalso
      rcases h.1 hb with ⟨i, hi, hne, hpre, hlast⟩
      have hl : (splitOnChar '/' (str "test_file.js")).length = 1 := by decide
      have hi1 : i < 1 := hl ▸ hi
      have hi0 : i = 0 := by omega
      subst hi0
      rcases hlast with hc | hc
      · exact hc (by rw [hl])
      · exact absurd hc (by decide)

/-! ### Adjacent-star machinery: a pattern with at most one `*`, or whose
stars are not adjacent, can never satisfy a `**`-shaped check -/

def hasAdjStars : Str → Bool
  | [] => false
  | [_] => false
  | a :: b :: rest => (a == '*' && b == '*') || hasAdjStars (b :: rest)

theorem hasAdjStars_of_starstar {l : Str} (h : (str "**") <:+: l) : hasAdjStars l = true := by
  induction l with
  | nil => exact absurd (List.infix_nil.1 h) (by decide)
  | cons a l ih =>
    rcases List.infix_cons_iff.1 h with h | h
    · obtain ⟨t, ht⟩ := h
      have e : str "**" = '*' :: '*' :: [] := by decide
      rw [e] at ht
      simp only [List.cons_append, List.nil_append] at ht
      cases l with
      | nil =>
        injection ht with h1 ht'
        exact absurd ht' (by simp)
      | cons b r =>
        injection ht with h1 ht'
        injection ht' with h2 ht''
        rw [show hasAdjStars (a :: b :: r) =
          ((a == '*' && b == '*') || hasAdjStars (b :: r)) from rfl]
        rw [← h1, ← h2]
        simp
    · cases l with
      | nil => exact absurd (List.infix_nil.1 h) (by decide)
      | cons b r =>
        rw [show hasAdjStars (a :: b :: r) =
          ((a == '*' && b == '*') || hasAdjStars (b :: r)) from rfl]
        rw [ih h]
        simp

theorem hasAdjStars_eq_false {l : Str} (h : '*' ∉ l) : hasAdjStars l = false := by
  induction l with
  | nil => rfl
  | cons a l ih =>
    cases l with
    | nil => rfl
    | cons b r =>
      have ha : (a == '*') = false := by
        simp only [beq_eq_false_iff_ne, ne_eq]
        intro he; subst he; exact h (List.mem_cons_self _ _)
      have h2 : '*' ∉ b :: r := fun hm => h (List.mem_cons_of_mem _ hm)
      rw [show hasAdjStars (a :: b :: r) =
        ((a == '*' && b == '*') || hasAdjStars (b :: r)) from rfl, ih h2, ha]
      rfl

theorem hasAdjStars_star_cons {l : Str} (h : '*' ∉ l) : hasAdjStars ('*' :: l) = false := by
  cases l with
  | nil => rfl
  | cons b r =>
    have hb : (b == '*') = false := by
      simp only [beq_eq_false_iff_ne, ne_eq]
      intro he; subst he; exact h (List.mem_cons_self _ _)
    rw [show hasAdjStars ('*' :: b :: r) =
      ((('*' : Char) == '*' && b == '*') || hasAdjStars (b :: r)) from rfl,
      hasAdjStars_eq_false h, hb]
    rfl

theorem hasAdjStars_single_star {a : Char} (pre : Str) {suf : Str} (ha : a ≠ '*')
    (hp : '*' ∉ pre) (hs : '*' ∉ suf) :
    hasAdjStars (a :: (pre ++ '*' :: suf)) = false := by
  induction pre generalizing a with
  | nil =>
    simp only [List.nil_append]
    rw [show hasAdjStars (a :: '*' :: suf) =
      ((a == '*' && ('*' : Char) == '*') || hasAdjStars ('*' :: suf)) from rfl,
      hasAdjStars_star_cons hs]
    simp [ha]
  | cons c pre ih =>
    have hc : c ≠ '*' := fun he => hp (he ▸ List.mem_cons_self _ _)
    have hp' : '*' ∉ pre := fun hm => hp (List.mem_cons_of_mem _ hm)
    simp only [List.cons_append]
    rw [show hasAdjStars (a :: c :: (pre ++ '*' :: suf)) =
      ((a == '*' && c == '*') || hasAdjStars (c :: (pre ++ '*' :: suf))) from rfl,
      ih hc hp']
    simp [ha]

theorem starstar_infix_tail {l : Str} (h : (str "/**") <:+: l) :
    (str "**") <:+: l.tail := by
  have e : str "/**" = '/' :: str "**" := by decide
  rw [e] at h
  obtain ⟨s, t, hst⟩ := h
  rcases s with _ | ⟨c, s'⟩
  · rw [← hst]
    simp only [List.nil_append, List.cons_append, List.tail_cons]
    exact ((List.prefix_append (str "**") t).isInfix)
  · rw [← hst]
    simp only [List.cons_append, List.tail_cons]
    exact ⟨s' ++ ['/'], t, by simp⟩

/-! ### splitOnChar and lastSegment lemmas -/

theorem splitOnChar_ne_nil (c : Char) (l : Str) : splitOnChar c l ≠ [] := by
  cases l with
  | nil => simp [splitOnChar]
  | cons x rest =>
    rcases hx : x == c with _ | _ <;> simp [splitOnChar, hx]

theorem splitOnChar_not_mem {c : Char} {l : Str} (h : c ∉ l) : splitOnChar c l = [l] := by
  induction l with
  | nil => rfl
  | cons x rest ih =>
    have hx : (x == c) = false := by
      simp only [beq_eq_false_iff_ne, ne_eq]
      intro he; subst he; exact h (List.mem_cons_self _ _)
    have h' : c ∉ rest := fun hm => h (List.mem_cons_of_mem _ hm)
    rw [splitOnChar, ih h']
    simp [hx]

theorem splitOnChar_star (pre suf : Str) (hp : '*' ∉ pre) (hs : '*' ∉ suf) :
    splitOnChar '*' (pre ++ '*' :: suf) = [pre, suf] := by
  induction pre with
  | nil =>
    simp only [List.nil_append]
    rw [splitOnChar, splitOnChar_not_mem hs]
    simp
  | cons x pre ih =>
    have hx : (x == '*') = false := by
      simp only [beq_eq_false_iff_ne, ne_eq]
      intro he; subst he; exact hp (List.mem_cons_self _ _)
    have hp' : '*' ∉ pre := fun hm => hp (List.mem_cons_of_mem _ hm)
    simp only [List.cons_append]
    rw [splitOnChar, ih hp']
    simp [hx]

theorem splitOnChar_singleton {c : Char} {l a : Str} (h : splitOnChar c l = [a]) : a = l := by
  induction l generalizing a with
  | nil =>
    rw [show splitOnChar c [] = [[]] from rfl] at h
    injection h with h1 _
    exact h1.symm
  | cons x rest ih =>
    rcases hr : splitOnChar c rest with _ | ⟨r0, rt⟩
    · exact absurd hr (splitOnChar_ne_nil c rest)
    · rw [splitOnChar] at h
      rcases hx : x == c with _ | _
      · rw [hx] at h
        simp only [hr] at h
        simp only [Bool.false_eq_true, if_false, List.headD_cons, List.tail_cons] at h
        injection h with h1 h2
        subst h2
        have := ih (show splitOnChar c rest = [r0] from hr)
        rw [← h1, this]
      · rw [hx] at h
        simp only [hr, if_true] at h
        injection h with h1 h2
        exact absurd h2 (List.cons_ne_nil r0 rt)

theorem getLastD_cons_irrel (b : Str) (l : List Str) (d e : Str) :
    (b :: l).getLastD d = (b :: l).getLastD e := by
  rw [List.getLastD_cons, List.getLastD_cons]

theorem lastSegment_suffix (p : Str) : lastSegment p <:+ p := by
  induction p with
  | nil => exact List.suffix_rfl
  | cons x rest ih =>
    unfold lastSegment at ih ⊢
    rcases hr : splitOnChar '/' rest with _ | ⟨r0, rt⟩
    · exact absurd hr (splitOnChar_ne_nil '/' rest)
    · rw [splitOnChar, hr]
      rcases hx : x == '/' with _ | _
      · simp only [Bool.false_eq_true, if_false, List.headD_cons, List.tail_cons]
        rcases rt with _ | ⟨rt0, rtt⟩
        · have hrest : r0 = rest := splitOnChar_singleton hr
          subst hrest
          simp only [List.getLastD_cons]
          exact List.suffix_rfl
        · rw [show ((x :: r0) :: rt0 :: rtt).getLastD [] =
              (rt0 :: rtt).getLastD (x :: r0) from List.getLastD_cons _ _ _,
            getLastD_cons_irrel rt0 rtt (x :: r0) r0,
            show (rt0 :: rtt).getLastD r0 = ((r0 :: rt0 :: rtt).getLastD []) from
              (List.getLastD_cons _ _ _).symm]
          rw [hr] at ih
          exact ih.trans (List.suffix_cons x rest)
      · simp only [if_true]
        rw [show (([] : Str) :: r0 :: rt).getLastD [] =
            ((r0 :: rt).getLastD []) from List.getLastD_cons _ _ _]
        rw [hr] at ih
        exact ih.trans (List.suffix_cons x rest)

/-! ### C7: leading single-wildcard patterns `*suffix` -/

theorem beq_eq_false_of_head_ne {a b : Char} {l m : Str} (h : a ≠ b) :
    ((a :: l) == (b :: m)) = false := by
  rcases hb : (a :: l) == (b :: m) with _ | _
  · rfl
  · have he : a :: l = b :: m := by simpa using hb
    injection he with h1 _
    exact absurd h1 h

theorem beq_eq_false_of_tail_mem {a b c : Char} {l m : Str} (hl : c ∉ l) (hm : c ∈ m) :
    ((a :: l) == (b :: m)) = false := by
  rcases hb : (a :: l) == (b :: m) with _ | _
  · rfl
  · have he : a :: l = b :: m := by simpa using hb
    injection he with _ h2
    subst h2
    exact absurd hm hl

theorem isPrefixOf_starstarslash_eq_false {q : Str} (hadj : hasAdjStars q = false) :
    (str "**/").isPrefixOf q = false := by
  rcases hb : (str "**/").isPrefixOf q with _ | _
  · rfl
  · have hpre : (str "**/") <+: q := by simpa using hb
    have hinf : (str "**") <:+: q :=
      ((show (str "**") <+: (str "**/") from by decide).trans hpre).isInfix
    exact absurd (hasAdjStars_of_starstar hinf) (by simp [hadj])

theorem isSuffixOf_slashstarstar_eq_false {q : Str} (hadj : hasAdjStars q = false) :
    (str "/**").isSuffixOf q = false := by
  rcases hb : (str "/**").isSuffixOf q with _ | _
  · rfl
  · have hsuf : (str "/**") <:+ q := by simpa using hb
    have hinf : (str "**") <:+: q :=
      (show (str "**") <:+: (str "/**") from by decide).trans hsuf.isInfix
    exact absurd (hasAdjStars_of_starstar hinf) (by simp [hadj])

theorem strContains_slashstarstarslash_eq_false {q : Str} (hadj : hasAdjStars q = false) :
    strContains q (str "/**/") = false := by
  rcases hb : strContains q (str "/**/") with _ | _
  · rfl
  · have hinf : (str "**") <:+: q :=
      (show (str "**") <:+: (str "/**/") from by decide).trans (strContains_iff.1 hb)
    exact absurd (hasAdjStars_of_starstar hinf) (by simp [hadj])

theorem strContains_starstar_eq_false {q : Str} (hadj : hasAdjStars q = false) :
    strContains q (str "**") = false := by
  rcases hb : strContains q (str "**") with _ | _
  · rfl
  · exact absurd (hasAdjStars_of_starstar (strContains_iff.1 hb)) (by simp [hadj])

/-- C7: for a single-wildcard leading pattern `*suffix` (exactly one `*`, so
no `**`; not ending with `/`; trim-invariant, as Patterns are trimmed lines),
`should_ignore` on the singleton set excludes a slash-normalized non-`.git`
path exactly when the final `/`-delimited segment ends with `suffix` and
(`suffix` is empty, or `suffix` starts with `'.'`, or the final segment
equals `suffix`). -/
theorem star_suffix_pattern_spec (suffix p : Str) (hstar : '*' ∉ suffix)
    (hsl : (str "/").isSuffixOf ('*' :: suffix) = false)
    (htrim : trim ('*' :: suffix) = '*' :: suffix)
    (hbs : '\\' ∉ p) (hgit1 : p ≠ str ".git") (hgit2 : ¬(str "/.git/") <:+: p) :
    should_ignore p ['*' :: suffix] =
      (suffix.isSuffixOf (lastSegment p) &&
        (suffix.isEmpty || suffix.head? == some '.' || lastSegment p == suffix)) := by
  have hadj : hasAdjStars ('*' :: suffix) = false := hasAdjStars_star_cons hstar
  simp only [should_ignore, normalizePath_eq_self hbs, List.any_cons, List.any_nil,
    Bool.or_false]
  unfold matchesPattern
  have e1 : (('*' :: suffix) == str "**/test/**") = false := by
    rw [show (str "**/test/**") = '*' :: str "*/test/**" from by decide]
    exact beq_eq_false_of_tail_mem hstar (by decide)
  have e2 : (('*' :: suffix) == str "**/test*/**") = false := by
    rw [show (str "**/test*/**") = '*' :: str "*/test*/**" from by decide]
    exact beq_eq_false_of_tail_mem hstar (by decide)
  have e3 : (('*' :: suffix) == str "**/*.md") = false := by
    rw [show (str "**/*.md") = '*' :: str "*/*.md" from by decide]
    exact beq_eq_false_of_tail_mem hstar (by decide)
  have e4 : (('*' :: suffix) == str "node_modules/") = false := by
    rw [show (str "node_modules/") = 'n' :: str "ode_modules/" from by decide]
    exact beq_eq_false_of_head_ne (by decide)
  have e5 : (('*' :: suffix) == str "build/") = false := by
    rw [show (str "build/") = 'b' :: str "uild/" from by decide]
    exact beq_eq_false_of_head_ne (by decide)
  have hg1 : anyDepthPrefixStep p ('*' :: suffix) = false := by
    unfold anyDepthPrefixStep
    rw [isPrefixOf_starstarslash_eq_false hadj]
    rfl
  have hg2 : anyDepthSuffixStep p ('*' :: suffix) = false := by
    unfold anyDepthSuffixStep
    rw [isSuffixOf_slashstarstar_eq_false hadj]
    rfl
  have hg3 : middleWildcardStep p ('*' :: suffix) = false := by
    unfold middleWildcardStep
    rw [strContains_slashstarstarslash_eq_false hadj]
    rfl
  have hg4 : (('*' :: suffix) == str "*.test.*") = false := by
    rw [show (str "*.test.*") = '*' :: str ".test.*" from by decide]
    exact beq_eq_false_of_tail_mem hstar (by decide)
  have hsplit : splitOnChar '*' ('*' :: suffix) = [[], suffix] := by
    have h0 := splitOnChar_star [] suffix (by simp) hstar
    simpa using h0
  have hstep : singleStarStep p ('*' :: suffix) =
      (suffix.isSuffixOf (lastSegment p) &&
        (suffix.isEmpty || suffix.head? == some '.' || lastSegment p == suffix)) := by
    unfold singleStarStep
    rw [hsplit]
    rcases hout : suffix.isSuffixOf p with _ | _
    · have hrhs : suffix.isSuffixOf (lastSegment p) = false := by
        rcases hb : suffix.isSuffixOf (lastSegment p) with _ | _
        · rfl
        · have h1 : suffix <:+ lastSegment p := by simpa using hb
          have h2 : suffix <:+ p := h1.trans (lastSegment_suffix p)
          rw [show suffix.isSuffixOf p = true from by simpa using h2] at hout
          exact absurd hout (by simp)
      rcases suffix with _ | ⟨c, suf⟩
      · simp at hout
      · have hlast_star : ((c :: suf).getLast? == some '*') = false := by
          rcases hb : (c :: suf).getLast? == some '*' with _ | _
          · rfl
          · have hg : (c :: suf).getLast? = some '*' := by simpa using hb
            exact absurd (List.mem_of_getLast?_eq_some hg) hstar
        simp [hout, hlast_star, hrhs]
    · simp [hout]
  have hgen : generalMatch p ('*' :: suffix) = singleStarStep p ('*' :: suffix) := by
    unfold generalMatch
    rw [hg1, hg2, hg3, hsl]
    simp [hg4, strContains_starstar_eq_false hadj]
  rw [e1, e2, e3, e4, e5, gitAlways_eq_false hgit1 hgit2, htrim, hgen, hstep]
  simp

/-- C7 witness: `{"*.js"}` excludes `"file.js"` and `"src/app.js"` but keeps
`"file.jsx"`. -/
theorem star_suffix_pattern_spec_witness :
    should_ignore (str "file.js") [str "*.js"] = true ∧
    should_ignore (str "src/app.js") [str "*.js"] = true ∧
    should_ignore (str "file.jsx") [str "*.js"] = false := by
  have h1 := star_suffix_pattern_spec (str ".js") (str "file.js") (by decide) (by decide)
    (by decide) (by decide) (by decide) (by decide)
  have h2 := star_suffix_pattern_spec (str ".js") (str "src/app.js") (by decide) (by decide)
    (by decide) (by decide) (by decide) (by decide)
  have h3 := star_suffix_pattern_spec (str ".js") (str "file.jsx") (by decide) (by decide)
    (by decide) (by decide) (by decide) (by decide)
  exact ⟨h1.trans (by decide), h2.trans (by decide), h3.trans (by decide)⟩

/-! ### C4: directory patterns with an embedded wildcard -/

theorem dropWhile_eq_self_of_head {p : Char → Bool} {l : Str}
    (h : ∀ c, l.head? = some c → p c = false) : l.dropWhile p = l := by
  cases l with
  | nil => rfl
  | cons a l =>
    rw [List.dropWhile_cons, h a rfl]
    simp

theorem trim_eq_self {l : Str}
    (h1 : ∀ c, l.head? = some c → c.isWhitespace = false)
    (h2 : ∀ c, l.getLast? = some c → c.isWhitespace = false) : trim l = l := by
  have hr : ∀ c, l.reverse.head? = some c → Char.isWhitespace c = false := by
    intro c hc
    exact h2 c (by rwa [List.head?_reverse] at hc)
  unfold trim
  rw [dropWhile_eq_self_of_head h1, dropWhile_eq_self_of_head hr, List.reverse_reverse]

theorem beq_eq_false_of_getLast_ne {l m : Str} (h : l.getLast? ≠ m.getLast?) :
    (l == m) = false := by
  rcases hb : l == m with _ | _
  · rfl
  · have he : l = m := by simpa using hb
    subst he
    exact absurd rfl h

theorem beq_eq_false_of_head_ne' {l m : Str} (h : l.head? ≠ m.head?) :
    (l == m) = false := by
  rcases hb : l == m with _ | _
  · rfl
  · have he : l = m := by simpa using hb
    subst he
    exact absurd rfl h

/-- C4 counterexample: the directory pattern `temp*/` (one embedded `*`, not
`**/`-prefixed) never matches: `{"temp*/"}` keeps `"temporary/file.txt"` even
though the segment `"temporary"` is non-empty, starts with `"temp"` and ends
with the empty suffix — refuting the claimed "exactly when". -/
theorem wildcard_dir_pattern_counterexample :
    should_ignore (str "temporary/file.txt") [str "temp*/"] = false ∧
    ((splitOnChar '/' (str "temporary/file.txt")).any fun segment =>
      !segment.isEmpty && (str "temp").isPrefixOf segment &&
        ([] : Str).isSuffixOf segment) = true :=
  ⟨by decide, by decide⟩

theorem isPrefixOf_intro {l m : Str} (h : l <+: m) : l.isPrefixOf m = true := by
  simpa using h

theorem isSuffixOf_intro {l m : Str} (h : l <:+ m) : l.isSuffixOf m = true := by
  simpa using h

/-- C4 amended: a directory pattern with an embedded wildcard matches only in
its `**/`-prefixed form: for star-free `pre` and `suf`, the pattern
`**/pre*suf/` excludes a wildcard-free, slash-normalized, non-`.git` path
exactly when some non-empty `/`-delimited segment starts with `pre` and ends
with `suf`; a pattern such as `temp*/` (no `**/` prefix) never matches. -/
theorem wildcard_dir_pattern_spec (pre suf p : Str)
    (hp : '*' ∉ pre) (hs : '*' ∉ suf) (hstar : '*' ∉ p) (hbs : '\\' ∉ p)
    (hgit1 : p ≠ str ".git") (hgit2 : ¬(str "/.git/") <:+: p) :
    should_ignore p [str "**/" ++ pre ++ '*' :: suf ++ str "/"] =
      ((splitOnChar '/' p).any fun segment =>
        !segment.isEmpty && pre.isPrefixOf segment && suf.isSuffixOf segment) := by
  have hsl : str "**/" = '*' :: '*' :: '/' :: ([] : Str) := by decide
  have hone : str "/" = ['/'] := by decide
  have hQ : str "**/" ++ pre ++ '*' :: suf ++ str "/" =
      '*' :: '*' :: '/' :: (pre ++ '*' :: (suf ++ str "/")) := by
    rw [hsl]
    simp
  rw [hQ]
  have hsX : '*' ∉ suf ++ str "/" := by
    intro hm
    rcases List.mem_append.1 hm with hm | hm
    · exact hs hm
    · exact absurd hm (by decide)
  have hstarR : '*' ∈ pre ++ '*' :: (suf ++ str "/") :=
    List.mem_append.2 (Or.inr (List.mem_cons_self _ _))
  have hconc : '*' :: '*' :: '/' :: (pre ++ '*' :: (suf ++ str "/")) =
      ('*' :: '*' :: '/' :: (pre ++ '*' :: suf)) ++ ['/'] := by
    simp [hone, List.append_assoc]
  have hlastQ : ('*' :: '*' :: '/' :: (pre ++ '*' :: (suf ++ str "/"))).getLast? = some '/' := by
    rw [hconc]
    exact List.getLast?_concat _
  have htrimQ : trim ('*' :: '*' :: '/' :: (pre ++ '*' :: (suf ++ str "/"))) =
      '*' :: '*' :: '/' :: (pre ++ '*' :: (suf ++ str "/")) := by
    refine trim_eq_self ?_ ?_
    · intro c hc
      rw [show ('*' :: '*' :: '/' :: (pre ++ '*' :: (suf ++ str "/"))).head? = some '*'
        from rfl] at hc
      injection hc with h
      rw [← h]
      decide
    · intro c hc
      rw [hlastQ] at hc
      injection hc with h
      rw [← h]
      decide
  have e1 : (('*' :: '*' :: '/' :: (pre ++ '*' :: (suf ++ str "/"))) == str "**/test/**")
      = false := beq_eq_false_of_getLast_ne (by rw [hlastQ]; decide)
  have e2 : (('*' :: '*' :: '/' :: (pre ++ '*' :: (suf ++ str "/"))) == str "**/test*/**")
      = false := beq_eq_false_of_getLast_ne (by rw [hlastQ]; decide)
  have e3 : (('*' :: '*' :: '/' :: (pre ++ '*' :: (suf ++ str "/"))) == str "**/*.md")
      = false := beq_eq_false_of_getLast_ne (by rw [hlastQ]; decide)
  have e4 : (('*' :: '*' :: '/' :: (pre ++ '*' :: (suf ++ str "/"))) == str "node_modules/")
      = false := beq_eq_false_of_head_ne' (by
        rw [show ('*' :: '*' :: '/' :: (pre ++ '*' :: (suf ++ str "/"))).head? = some '*'
          from rfl]
        decide)
  have e5 : (('*' :: '*' :: '/' :: (pre ++ '*' :: (suf ++ str "/"))) == str "build/")
      = false := beq_eq_false_of_head_ne' (by
        rw [show ('*' :: '*' :: '/' :: (pre ++ '*' :: (suf ++ str "/"))).head? = some '*'
          from rfl]
        decide)
  have hadjtail : hasAdjStars ('*' :: '/' :: (pre ++ '*' :: (suf ++ str "/"))) = false := by
    rw [show hasAdjStars ('*' :: '/' :: (pre ++ '*' :: (suf ++ str "/"))) =
      ((('*' : Char) == '*' && ('/' : Char) == '*') ||
        hasAdjStars ('/' :: (pre ++ '*' :: (suf ++ str "/")))) from rfl,
      hasAdjStars_single_star pre (by decide) hp hsX]
    rfl
  have hRconc : pre ++ '*' :: (suf ++ str "/") = (pre ++ '*' :: suf) ++ ['/'] := by
    simp [hone, List.append_assoc]
  have hRdrop : (pre ++ '*' :: (suf ++ str "/")).dropLast = pre ++ '*' :: suf := by
    rw [hRconc, List.dropLast_concat]
  have hstarRD : '*' ∈ (pre ++ '*' :: (suf ++ str "/")).dropLast := by
    rw [hRdrop]
    exact List.mem_append.2 (Or.inr (List.mem_cons_self _ _))
  have hpref1 : (str "**/").isPrefixOf ('*' :: '*' :: '/' :: (pre ++ '*' :: (suf ++ str "/")))
      = true := by
    rw [hsl]
    exact isPrefixOf_intro ⟨pre ++ '*' :: (suf ++ str "/"), rfl⟩
  have hg1 : anyDepthPrefixStep p ('*' :: '*' :: '/' :: (pre ++ '*' :: (suf ++ str "/")))
      = false := by
    unfold anyDepthPrefixStep
    simp only []
    rw [hpref1, if_pos rfl,
      show ('*' :: '*' :: '/' :: (pre ++ '*' :: (suf ++ str "/"))).drop 3
        = pre ++ '*' :: (suf ++ str "/") from rfl,
      beq_str_eq_false_of_mem hstar hstarR,
      isSuffixOf_eq_false_of_mem hstar (List.mem_cons_of_mem '/' hstarR),
      isSuffixOf_eq_false_of_mem hstar hstarRD,
      strContains_eq_false_of_mem hstar
        (show '*' ∈ (pre ++ '*' :: (suf ++ str "/")).dropLast ++ str "/" from
          List.mem_append.2 (Or.inl hstarRD))]
    simp
  have hg2 : anyDepthSuffixStep p ('*' :: '*' :: '/' :: (pre ++ '*' :: (suf ++ str "/")))
      = false := by
    unfold anyDepthSuffixStep
    have hc : (str "/**").isSuffixOf ('*' :: '*' :: '/' :: (pre ++ '*' :: (suf ++ str "/")))
        = false := by
      rcases hb : (str "/**").isSuffixOf ('*' :: '*' :: '/' :: (pre ++ '*' :: (suf ++ str "/")))
        with _ | _
      · rfl
      · have hsuf : (str "/**") <:+ ('*' :: '*' :: '/' :: (pre ++ '*' :: (suf ++ str "/"))) := by
          simpa using hb
        have h2 : (str "**") <:+: ('*' :: '/' :: (pre ++ '*' :: (suf ++ str "/"))) :=
          starstar_infix_tail hsuf.isInfix
        exact absurd (hasAdjStars_of_starstar h2) (by simp [hadjtail])
    rw [hc]
    rfl
  have hg3 : middleWildcardStep p ('*' :: '*' :: '/' :: (pre ++ '*' :: (suf ++ str "/")))
      = false := by
    unfold middleWildcardStep
    have hc : strContains ('*' :: '*' :: '/' :: (pre ++ '*' :: (suf ++ str "/"))) (str "/**/")
        = false := by
      rcases hb : strContains ('*' :: '*' :: '/' :: (pre ++ '*' :: (suf ++ str "/")))
        (str "/**/") with _ | _
      · rfl
      · have hinf : (str "/**") <:+: ('*' :: '*' :: '/' :: (pre ++ '*' :: (suf ++ str "/"))) :=
          ((show (str "/**") <+: (str "/**/") from by decide).isInfix).trans
            (strContains_iff.1 hb)
        have h2 : (str "**") <:+: ('*' :: '/' :: (pre ++ '*' :: (suf ++ str "/"))) :=
          starstar_infix_tail hinf
        exact absurd (hasAdjStars_of_starstar h2) (by simp [hadjtail])
    rw [hc]
    rfl
  have hslash : (str "/").isSuffixOf ('*' :: '*' :: '/' :: (pre ++ '*' :: (suf ++ str "/")))
      = true := by
    rw [hconc, hone]
    exact isSuffixOf_intro (List.suffix_append _ _)
  have hdir : dirPatternStep p ('*' :: '*' :: '/' :: (pre ++ '*' :: (suf ++ str "/"))) =
      ((splitOnChar '/' p).any fun segment =>
        !segment.isEmpty && pre.isPrefixOf segment && suf.isSuffixOf segment) := by
    unfold dirPatternStep
    simp only []
    rw [show ('*' :: '*' :: '/' :: (pre ++ '*' :: (suf ++ str "/"))).dropLast
        = '*' :: '*' :: '/' :: (pre ++ '*' :: suf) from by
      rw [hconc]
      exact List.dropLast_concat]
    rw [show ('*' :: '*' :: '/' :: (pre ++ '*' :: suf)).contains '*' = true from rfl, if_pos rfl]
    rw [show (str "**/").isPrefixOf ('*' :: '*' :: '/' :: (pre ++ '*' :: suf)) = true from by
      rw [hsl]
      exact isPrefixOf_intro ⟨pre ++ '*' :: suf, rfl⟩, if_pos rfl]
    rw [show ('*' :: '*' :: '/' :: (pre ++ '*' :: suf)).drop 3 = pre ++ '*' :: suf from rfl]
    have hwc : (pre ++ '*' :: suf).contains '*' = true := by
      simp
    rw [hwc, if_pos rfl]
    rw [splitOnChar_star pre suf hp hs]
    rfl
  simp only [should_ignore, normalizePath_eq_self hbs, List.any_cons, List.any_nil,
    Bool.or_false]
  unfold matchesPattern
  rw [e1, e2, e3, e4, e5, gitAlways_eq_false hgit1 hgit2, htrimQ]
  unfold generalMatch
  rw [hg1, hg2, hg3, hslash]
  simp only [hdir]
  simp

/-- C4 amended witness: the `**/`-prefixed form does exclude
`"temporary/file.txt"`. -/
theorem wildcard_dir_pattern_spec_witness :
    should_ignore (str "temporary/file.txt") [str "**/temp*/"] = true := by
  have h := wildcard_dir_pattern_spec (str "temp") [] (str "temporary/file.txt")
    (by decide) (by decide) (by decide) (by decide) (by decide) (by decide)
  exact h.trans (by decide)
